import Mathlib

set_option autoImplicit false

/-!
Verification of the archived hash map and shared/weak reference core of the
rkyv repository (src/rkyv/src/collections/hash_map/mod.rs and
src/rkyv/src/rc/mod.rs), as a shallow embedding.  Components of the
repository that are not part of the given sources (the hash index module,
the scratch-space serializer facility, the relative-pointer primitive and
the shared-serializer facility) are modelled from the specification and
marked as such in their doc comments.
-/

/-- Modelled from the spec: the `ArchivedHashIndex` of the `hash_index`
module (not among the given sources).  It exposes a logical length and a
candidate-slot function `index(key)`; per the spec its contract is that for
keys of the construction set it returns that key's unique slot, and for
other keys it returns `none` or a slot holding a different key. -/
structure ArchivedHashIndex (K : Type) where
  slotOf : K → Option Nat
  lenVal : Nat

/-- The candidate slot proposed by the hash index for a key. -/
def ArchivedHashIndex.index {K : Type} (h : ArchivedHashIndex K) (k : K) : Option Nat :=
  h.slotOf k

/-- The logical length stored in the hash index. -/
def ArchivedHashIndex.len {K : Type} (h : ArchivedHashIndex K) : Nat :=
  h.lenVal

/-- `ArchivedHashMap`: a hash index plus the entries array (the relative
pointer to the entries region is modelled as the list of entries it points
to). -/
structure ArchivedHashMap (K V : Type) where
  index : ArchivedHashIndex K
  entries : List (K × V)

/-- `len()` reads the index length. -/
def ArchivedHashMap.len {K V : Type} (m : ArchivedHashMap K V) : Nat :=
  m.index.len

/-- `is_empty()`. -/
def ArchivedHashMap.is_empty {K V : Type} (m : ArchivedHashMap K V) : Bool :=
  decide (m.len = 0)

/-- `find`: ask the index for a candidate slot, read the entry there and
confirm by key equality.  The entry read `self.entry(i)` is an unchecked
pointer read in the source; an out-of-range slot is undefined behaviour
there and is modelled as a failed lookup. -/
def ArchivedHashMap.find {K V : Type} [DecidableEq K]
    (m : ArchivedHashMap K V) (k : K) : Option Nat :=
  (m.index.index k).bind (fun i =>
    match m.entries[i]? with
    | some e => if e.1 = k then some i else none
    | none => none)

/-- `get_key_value`: `find` then re-read the entry at the found slot. -/
def ArchivedHashMap.get_key_value {K V : Type} [DecidableEq K]
    (m : ArchivedHashMap K V) (k : K) : Option (K × V) :=
  (m.find k).bind (fun i =>
    match m.entries[i]? with
    | some e => some (e.1, e.2)
    | none => none)

/-- `contains_key`: `self.find(k).is_some()`. -/
def ArchivedHashMap.contains_key {K V : Type} [DecidableEq K]
    (m : ArchivedHashMap K V) (k : K) : Bool :=
  (m.find k).isSome

/-- `get`: `find` then project the value at the found slot. -/
def ArchivedHashMap.get {K V : Type} [DecidableEq K]
    (m : ArchivedHashMap K V) (k : K) : Option V :=
  (m.find k).bind (fun i =>
    match m.entries[i]? with
    | some e => some e.2
    | none => none)

/-- The `Index` operator: `self.get(key).unwrap()`.  The `unwrap` panic on
a missing key is modelled as the error of an `Except`. -/
def ArchivedHashMap.index_op {K V : Type} [DecidableEq K]
    (m : ArchivedHashMap K V) (k : K) : Except Unit V :=
  match m.get k with
  | some v => Except.ok v
  | none => Except.error ()

/-- Well-formedness of an archived map, from the spec's data-model
invariants: the index length equals the entries length, keys are unique,
and the index sends the key stored at slot `i` to slot `i`. -/
def ArchivedHashMap.WF {K V : Type} (m : ArchivedHashMap K V) : Prop :=
  m.index.len = m.entries.length ∧
  (m.entries.map Prod.fst).Nodup ∧
  ∀ i : Nat, ∀ h : i < m.entries.length, m.index.index (m.entries.get ⟨i, h⟩).1 = some i

/-- If `find` succeeds at slot `i`, the entry stored at `i` has the queried
key. -/
theorem find_some_entry {K V : Type} [DecidableEq K]
    (m : ArchivedHashMap K V) (k : K) (i : Nat)
    (hf : m.find k = some i) :
    ∃ e, m.entries[i]? = some e ∧ e.1 = k := by
  cases hidx : m.index.index k with
  | none => simp [ArchivedHashMap.find, hidx] at hf
  | some j =>
    cases hget : m.entries[j]? with
    | none => simp [ArchivedHashMap.find, hidx, hget] at hf
    | some e =>
      by_cases hk : e.1 = k
      · simp [ArchivedHashMap.find, hidx, hget, hk] at hf
        exact ⟨e, by simpa [hf] using hget, hk⟩
      · simp [ArchivedHashMap.find, hidx, hget, hk] at hf

/-- Claim C2: for a key equal to no stored key, `find`, `get` and
`get_key_value` return `none` and `contains_key` is `false`, whatever
candidate slot the hash index proposes: the equality check against the
stored key rejects the candidate. -/
theorem absent_key_lookup_misses {K V : Type} [DecidableEq K]
    (m : ArchivedHashMap K V) (k : K)
    (habs : ∀ e ∈ m.entries, e.1 ≠ k) :
    m.find k = none ∧ m.get k = none ∧ m.get_key_value k = none ∧
      m.contains_key k = false := by
  have hfind : m.find k = none := by
    cases hf : m.find k with
    | none => rfl
    | some i =>
      obtain ⟨e, hget, hk⟩ := find_some_entry m k i hf
      exact absurd hk (habs e (List.getElem?_mem hget))
  exact ⟨hfind, by simp [ArchivedHashMap.get, hfind],
    by simp [ArchivedHashMap.get_key_value, hfind],
    by simp [ArchivedHashMap.contains_key, hfind]⟩

/-- Witness for claim C2: a map holding only the entry `(0, 5)` whose index
proposes slot `0` for every key still misses the absent key `1`. -/
theorem absent_key_lookup_misses_witness :
    (ArchivedHashMap.mk ⟨fun _ => some 0, 1⟩ [((0 : Nat), (5 : Nat))]).find 1 = none ∧
    (ArchivedHashMap.mk ⟨fun _ => some 0, 1⟩ [((0 : Nat), (5 : Nat))]).get 1 = none ∧
    (ArchivedHashMap.mk ⟨fun _ => some 0, 1⟩ [((0 : Nat), (5 : Nat))]).get_key_value 1 = none ∧
    (ArchivedHashMap.mk ⟨fun _ => some 0, 1⟩ [((0 : Nat), (5 : Nat))]).contains_key 1 = false :=
  absent_key_lookup_misses (ArchivedHashMap.mk ⟨fun _ => some 0, 1⟩ [((0 : Nat), (5 : Nat))]) 1
    (by decide)

/-- Claim C9: `contains_key`, `get` and `get_key_value` are mutually
consistent because all route through `find`: they succeed together, and on
success `get_key_value` returns the stored key (equal to the query) paired
with the value `get` returns. -/
theorem accessors_consistent {K V : Type} [DecidableEq K]
    (m : ArchivedHashMap K V) (k : K) :
    (m.contains_key k = (m.get k).isSome) ∧
    ((m.get k).isSome = (m.get_key_value k).isSome) ∧
    (∀ p : K × V, m.get_key_value k = some p → p.1 = k ∧ m.get k = some p.2) := by
  cases hf : m.find k with
  | none =>
    refine ⟨?_, ?_, ?_⟩ <;>
      simp [ArchivedHashMap.contains_key, ArchivedHashMap.get,
        ArchivedHashMap.get_key_value, hf]
  | some i =>
    obtain ⟨e, hget, hk⟩ := find_some_entry m k i hf
    refine ⟨?_, ?_, ?_⟩
    · simp [ArchivedHashMap.contains_key, ArchivedHashMap.get, hf, hget]
    · simp [ArchivedHashMap.get, ArchivedHashMap.get_key_value, hf, hget]
    · intro p hp
      simp [ArchivedHashMap.get_key_value, hf, hget] at hp
      simp [ArchivedHashMap.get, hf, hget, ← hp, hk]

/-- Witness for claim C9: the consistency theorem applied to a concrete
one-entry map at its present key. -/
theorem accessors_consistent_witness :
    ((ArchivedHashMap.mk ⟨fun _ => some 0, 1⟩ [((0 : Nat), (5 : Nat))]).get_key_value 0 =
        some ((0 : Nat), (5 : Nat)) →
      ((0 : Nat), (5 : Nat)).1 = 0 ∧
        (ArchivedHashMap.mk ⟨fun _ => some 0, 1⟩ [((0 : Nat), (5 : Nat))]).get 0 = some 5) :=
  (accessors_consistent (ArchivedHashMap.mk ⟨fun _ => some 0, 1⟩ [((0 : Nat), (5 : Nat))]) 0).2.2
    ((0 : Nat), (5 : Nat))

/-- Claim C8: the index-by-key operator returns the stored value exactly
when the key is present (agreeing with `get`) and faults on a missing key;
it never produces a value `get` would not produce. -/
theorem index_op_spec {K V : Type} [DecidableEq K]
    (m : ArchivedHashMap K V) (k : K) :
    (∀ v : V, m.get k = some v → m.index_op k = Except.ok v) ∧
    (m.get k = none → m.index_op k = Except.error ()) ∧
    (∀ v : V, m.index_op k = Except.ok v → m.get k = some v) := by
  refine ⟨fun v hv => by simp [ArchivedHashMap.index_op, hv],
    fun hn => by simp [ArchivedHashMap.index_op, hn],
    fun v hv => ?_⟩
  cases hg : m.get k with
  | none => simp [ArchivedHashMap.index_op, hg] at hv
  | some w => simpa [ArchivedHashMap.index_op, hg] using hv

/-- Witness for claim C8: on a concrete one-entry map, the operator yields
the stored value at the present key and faults at an absent key. -/
theorem index_op_spec_witness :
    ((ArchivedHashMap.mk ⟨fun _ => some 0, 1⟩ [((0 : Nat), (5 : Nat))]).get 0 = some 5 →
      (ArchivedHashMap.mk ⟨fun _ => some 0, 1⟩ [((0 : Nat), (5 : Nat))]).index_op 0 =
        Except.ok 5) ∧
    ((ArchivedHashMap.mk ⟨fun _ => some 0, 1⟩ [((0 : Nat), (5 : Nat))]).get 1 = none →
      (ArchivedHashMap.mk ⟨fun _ => some 0, 1⟩ [((0 : Nat), (5 : Nat))]).index_op 1 =
        Except.error ()) :=
  ⟨(index_op_spec (ArchivedHashMap.mk ⟨fun _ => some 0, 1⟩ [((0 : Nat), (5 : Nat))]) 0).1 5,
    (index_op_spec (ArchivedHashMap.mk ⟨fun _ => some 0, 1⟩ [((0 : Nat), (5 : Nat))]) 1).2.1⟩

/-- `RawIter`: a pointer into the entries array plus a remaining count.
The pointer is modelled as the array together with the current offset. -/
structure RawIter (K V : Type) where
  arr : List (K × V)
  current : Nat
  remaining : Nat

/-- `RawIter::next`: yield the entry under the cursor and advance, or end
when `remaining` is zero.  The source returns the raw entry pointer and the
wrapping iterators dereference it; the dereference is folded into `next`
here.  Reading past the array is undefined behaviour in the source and is
modelled as end of iteration. -/
def RawIter.next {K V : Type} (it : RawIter K V) :
    Option (K × V) × RawIter K V :=
  if it.remaining = 0 then (none, it)
  else
    match it.arr[it.current]? with
    | some e => (some e, ⟨it.arr, it.current + 1, it.remaining - 1⟩)
    | none => (none, it)

/-- `RawIter::size_hint`: `(remaining, Some(remaining))`. -/
def RawIter.size_hint {K V : Type} (it : RawIter K V) : Nat × Option Nat :=
  (it.remaining, some it.remaining)

/-- `Iter`, the key-value iterator wrapping `RawIter`. -/
structure Iter (K V : Type) where
  inner : RawIter K V

/-- `Iter::next`: delegate to `RawIter::next` and return the key-value
pair. -/
def Iter.next {K V : Type} (it : Iter K V) : Option (K × V) × Iter K V :=
  match it.inner.next with
  | (o, inner2) => (o, ⟨inner2⟩)

/-- `Iter::size_hint` delegates to the raw iterator. -/
def Iter.size_hint {K V : Type} (it : Iter K V) : Nat × Option Nat :=
  it.inner.size_hint

/-- `Keys`, the key iterator wrapping `RawIter`. -/
structure Keys (K V : Type) where
  inner : RawIter K V

/-- `Keys::next`: delegate and keep only the key. -/
def Keys.next {K V : Type} (it : Keys K V) : Option K × Keys K V :=
  match it.inner.next with
  | (o, inner2) => (o.map Prod.fst, ⟨inner2⟩)

/-- `Values`, the value iterator wrapping `RawIter`. -/
structure Values (K V : Type) where
  inner : RawIter K V

/-- `Values::next`: delegate and keep only the value. -/
def Values.next {K V : Type} (it : Values K V) : Option V × Values K V :=
  match it.inner.next with
  | (o, inner2) => (o.map Prod.snd, ⟨inner2⟩)

/-- `raw_iter`: an iterator starting at the entries pointer with `len()`
items remaining. -/
def ArchivedHashMap.raw_iter {K V : Type} (m : ArchivedHashMap K V) : RawIter K V :=
  ⟨m.entries, 0, m.len⟩

/-- `iter()`. -/
def ArchivedHashMap.iter {K V : Type} (m : ArchivedHashMap K V) : Iter K V :=
  ⟨m.raw_iter⟩

/-- `keys()`. -/
def ArchivedHashMap.keys {K V : Type} (m : ArchivedHashMap K V) : Keys K V :=
  ⟨m.raw_iter⟩

/-- `values()`. -/
def ArchivedHashMap.values {K V : Type} (m : ArchivedHashMap K V) : Values K V :=
  ⟨m.raw_iter⟩

/-- Drains an iterator through its step function; the fuel bounds the
number of steps, and every iterator here yields at most `remaining`
items, so fuel `remaining` drains it completely. -/
def drain {I A : Type} (next : I → Option A × I) : Nat → I → List A
  | 0, _ => []
  | fuel + 1, it =>
    match next it with
    | (some a, it2) => a :: drain next fuel it2
    | (none, _) => []

/-- The full yield of a `RawIter`. -/
def RawIter.toList {K V : Type} (it : RawIter K V) : List (K × V) :=
  drain RawIter.next it.remaining it

/-- The full yield of an `Iter`. -/
def Iter.toList {K V : Type} (it : Iter K V) : List (K × V) :=
  drain Iter.next it.inner.remaining it

/-- The full yield of a `Keys`. -/
def Keys.toList {K V : Type} (it : Keys K V) : List K :=
  drain Keys.next it.inner.remaining it

/-- The full yield of a `Values`. -/
def Values.toList {K V : Type} (it : Values K V) : List V :=
  drain Values.next it.inner.remaining it

/-- Draining a raw iterator whose remaining count fits inside the array
yields exactly the array segment under the cursor. -/
theorem drain_raw_eq {K V : Type} :
    ∀ (r c : Nat) (arr : List (K × V)), c + r ≤ arr.length →
      drain RawIter.next r ⟨arr, c, r⟩ = (arr.drop c).take r := by
  intro r
  induction r with
  | zero => intro c arr _; simp [drain]
  | succ n ih =>
    intro c arr hle
    have hc : c < arr.length := by omega
    have hnext : RawIter.next (⟨arr, c, n + 1⟩ : RawIter K V) =
        (some (arr.get ⟨c, hc⟩), ⟨arr, c + 1, n⟩) := by
      simp [RawIter.next, List.getElem?_eq_getElem hc]
    rw [drain, hnext, List.drop_eq_getElem_cons hc, List.take_succ_cons]
    exact congrArg (fun l => arr[c] :: l) (ih (c + 1) arr (by omega))

/-- `Iter` drains to the same list as its raw iterator. -/
theorem drain_iter_eq {K V : Type} :
    ∀ (fuel : Nat) (raw : RawIter K V),
      drain Iter.next fuel ⟨raw⟩ = drain RawIter.next fuel raw := by
  intro fuel
  induction fuel with
  | zero => intro raw; rfl
  | succ n ih =>
    intro raw
    rcases hnext : raw.next with ⟨o, raw2⟩
    cases o with
    | none => simp [drain, Iter.next, hnext]
    | some e => simp [drain, Iter.next, hnext, ih]

/-- `Keys` drains to the keys of what its raw iterator drains to. -/
theorem drain_keys_eq {K V : Type} :
    ∀ (fuel : Nat) (raw : RawIter K V),
      drain Keys.next fuel ⟨raw⟩ = (drain RawIter.next fuel raw).map Prod.fst := by
  intro fuel
  induction fuel with
  | zero => intro raw; rfl
  | succ n ih =>
    intro raw
    rcases hnext : raw.next with ⟨o, raw2⟩
    cases o with
    | none => simp [drain, Keys.next, hnext]
    | some e => simp [drain, Keys.next, hnext, ih]

/-- `Values` drains to the values of what its raw iterator drains to. -/
theorem drain_values_eq {K V : Type} :
    ∀ (fuel : Nat) (raw : RawIter K V),
      drain Values.next fuel ⟨raw⟩ = (drain RawIter.next fuel raw).map Prod.snd := by
  intro fuel
  induction fuel with
  | zero => intro raw; rfl
  | succ n ih =>
    intro raw
    rcases hnext : raw.next with ⟨o, raw2⟩
    cases o with
    | none => simp [drain, Values.next, hnext]
    | some e => simp [drain, Values.next, hnext, ih]

/-- Under the length invariant, the raw iterator of a map drains to its
entries list. -/
theorem raw_drain_entries {K V : Type} (m : ArchivedHashMap K V)
    (hlen : m.index.len = m.entries.length) :
    drain RawIter.next m.len m.raw_iter = m.entries := by
  have := drain_raw_eq (K := K) (V := V) m.len 0 m.entries
    (by simp [ArchivedHashMap.len, hlen])
  simpa [ArchivedHashMap.raw_iter, ArchivedHashMap.len, hlen] using this

/-- Under the length invariant, `iter` yields the entries in storage
order. -/
theorem iter_toList_entries {K V : Type} (m : ArchivedHashMap K V)
    (hlen : m.index.len = m.entries.length) : m.iter.toList = m.entries := by
  rw [ArchivedHashMap.iter, Iter.toList]
  rw [show (Iter.mk m.raw_iter).inner.remaining = m.len from rfl]
  rw [drain_iter_eq, raw_drain_entries m hlen]

/-- Claim C7: when the index length matches the entries length (the map
invariant), `iter`, `keys` and `values` each yield exactly `len()` items in
physical storage order: the i-th item is the entry at slot i, and the
count equals `len()`. -/
theorem iteration_in_storage_order {K V : Type} (m : ArchivedHashMap K V)
    (hlen : m.index.len = m.entries.length) :
    m.iter.toList = m.entries ∧
    m.keys.toList = m.entries.map Prod.fst ∧
    m.values.toList = m.entries.map Prod.snd ∧
    m.iter.toList.length = m.len ∧
    (∀ i : Nat, i < m.len → m.iter.toList[i]? = m.entries[i]?) := by
  have hraw := raw_drain_entries m hlen
  have hiter := iter_toList_entries m hlen
  refine ⟨hiter, ?_, ?_, ?_, ?_⟩
  · rw [ArchivedHashMap.keys, Keys.toList]
    rw [show (Keys.mk m.raw_iter).inner.remaining = m.len from rfl]
    rw [drain_keys_eq, hraw]
  · rw [ArchivedHashMap.values, Values.toList]
    rw [show (Values.mk m.raw_iter).inner.remaining = m.len from rfl]
    rw [drain_values_eq, hraw]
  · rw [hiter, ArchivedHashMap.len, hlen]
  · intro i _
    rw [hiter]

/-- Witness for claim C7: the iteration theorem applied to a concrete
two-entry map. -/
theorem iteration_in_storage_order_witness :
    (ArchivedHashMap.mk ⟨fun _ => some 0, 2⟩
        [((0 : Nat), (5 : Nat)), (1, 7)]).iter.toList =
      [((0 : Nat), (5 : Nat)), (1, 7)] ∧
    (ArchivedHashMap.mk ⟨fun _ => some 0, 2⟩
        [((0 : Nat), (5 : Nat)), (1, 7)]).keys.toList =
      [((0 : Nat), (5 : Nat)), (1, 7)].map Prod.fst ∧
    (ArchivedHashMap.mk ⟨fun _ => some 0, 2⟩
        [((0 : Nat), (5 : Nat)), (1, 7)]).values.toList =
      [((0 : Nat), (5 : Nat)), (1, 7)].map Prod.snd ∧
    (ArchivedHashMap.mk ⟨fun _ => some 0, 2⟩
        [((0 : Nat), (5 : Nat)), (1, 7)]).iter.toList.length =
      (ArchivedHashMap.mk ⟨fun _ => some 0, 2⟩ [((0 : Nat), (5 : Nat)), (1, 7)]).len ∧
    (∀ i : Nat,
      i < (ArchivedHashMap.mk ⟨fun _ => some 0, 2⟩ [((0 : Nat), (5 : Nat)), (1, 7)]).len →
      (ArchivedHashMap.mk ⟨fun _ => some 0, 2⟩
          [((0 : Nat), (5 : Nat)), (1, 7)]).iter.toList[i]? =
        [((0 : Nat), (5 : Nat)), (1, 7)][i]?) :=
  iteration_in_storage_order
    (ArchivedHashMap.mk ⟨fun _ => some 0, 2⟩ [((0 : Nat), (5 : Nat)), (1, 7)]) (by decide)

/-- The trusted-length invariant of a raw iterator: the remaining count
fits in the array beyond the cursor (maintained by construction in the
source, where the cursor is a raw pointer). -/
def RawIter.Inv {K V : Type} (it : RawIter K V) : Prop :=
  it.current + it.remaining ≤ it.arr.length

/-- The invariant of an `Iter` is that of its raw iterator. -/
def Iter.Inv {K V : Type} (it : Iter K V) : Prop :=
  it.inner.Inv

/-- Under the invariant, a raw iterator yields exactly `remaining` items. -/
theorem RawIter.toList_length {K V : Type} (it : RawIter K V) (h : it.Inv) :
    it.toList.length = it.remaining := by
  rcases it with ⟨arr, c, r⟩
  simp only [RawIter.Inv] at h
  simp only [RawIter.toList]
  rw [drain_raw_eq r c arr h]
  simp only [List.length_take, List.length_drop]
  omega

/-- A step returning `none` leaves the iterator unchanged. -/
theorem RawIter.next_none {K V : Type} (it it2 : RawIter K V)
    (h : it.next = (none, it2)) : it2 = it := by
  rcases it with ⟨arr, c, r⟩
  by_cases hr : r = 0
  · subst hr
    simp [RawIter.next] at h
    first
    | exact h
    | exact h.symm
  · cases hget : arr[c]? with
    | some e => simp [RawIter.next, hr, hget] at h
    | none =>
      simp [RawIter.next, hr, hget] at h
      first
      | exact h
      | exact h.symm

/-- Under the invariant, a nonzero remaining count means the next step
yields an item, preserves the invariant and decrements the count. -/
theorem RawIter.next_pos {K V : Type} (it : RawIter K V) (h : it.Inv)
    (hr : 0 < it.remaining) :
    ∃ e it2, it.next = (some e, it2) ∧ it2.Inv ∧ it2.remaining + 1 = it.remaining := by
  rcases it with ⟨arr, c, r⟩
  simp only [RawIter.Inv] at h
  have hc : c < arr.length := by simp at hr; omega
  have hr0 : ¬ r = 0 := by simp at hr; omega
  refine ⟨arr.get ⟨c, hc⟩, ⟨arr, c + 1, r - 1⟩, ?_, ?_, ?_⟩
  · simp [RawIter.next, hr0, List.getElem?_eq_getElem hc]
  · simp only [RawIter.Inv]; omega
  · simp at hr ⊢; omega

/-- Claim C10: the map iterators keep an exact remaining count: under the
trusted-length invariant, `size_hint` is `(n, some n)` where `n` is exactly
the number of items still to be yielded; while `n` is positive, `next`
yields an item and decrements `n`; and a `none` step leaves the iterator in
a state that keeps returning `none` (fused), both for `RawIter` and for
the wrapping `Iter`. -/
theorem iterator_exact_count {K V : Type} :
    (∀ it : RawIter K V, it.Inv →
      it.size_hint = (it.toList.length, some it.toList.length)) ∧
    (∀ it : RawIter K V, it.Inv → 0 < it.remaining →
      ∃ e it2, it.next = (some e, it2) ∧ it2.Inv ∧
        it2.remaining + 1 = it.remaining) ∧
    (∀ it it2 : RawIter K V, it.next = (none, it2) → it2.next = (none, it2)) ∧
    (∀ it : Iter K V, it.Inv →
      it.size_hint = (it.toList.length, some it.toList.length)) ∧
    (∀ it : Iter K V, it.Inv → 0 < it.inner.remaining →
      ∃ e it2, it.next = (some e, it2) ∧ it2.Inv ∧
        it2.inner.remaining + 1 = it.inner.remaining) ∧
    (∀ it it2 : Iter K V, it.next = (none, it2) → it2.next = (none, it2)) := by
  have hfused : ∀ it it2 : RawIter K V, it.next = (none, it2) →
      it2.next = (none, it2) := by
    intro it it2 h
    have he := RawIter.next_none it it2 h
    rw [he] at h ⊢
    exact h
  have hiterList : ∀ it : Iter K V, it.toList = it.inner.toList := by
    intro it
    rcases it with ⟨raw⟩
    simp only [Iter.toList, RawIter.toList]
    exact drain_iter_eq raw.remaining raw
  refine ⟨?_, fun it h hr => RawIter.next_pos it h hr, hfused, ?_, ?_, ?_⟩
  · intro it h
    simp [RawIter.size_hint, RawIter.toList_length it h]
  · intro it h
    simp [Iter.size_hint, RawIter.size_hint, hiterList it,
      RawIter.toList_length it.inner h]
  · intro it h hr
    obtain ⟨e, raw2, hnext, hinv, hcount⟩ := RawIter.next_pos it.inner h hr
    exact ⟨e, ⟨raw2⟩, by simp [Iter.next, hnext], hinv, hcount⟩
  · intro it it2 h
    rcases it with ⟨raw⟩
    rcases hrawnext : raw.next with ⟨o, raw2⟩
    simp only [Iter.next, hrawnext] at h
    cases o with
    | some e => simp at h
    | none =>
      have h2 : (⟨raw2⟩ : Iter K V) = it2 := congrArg Prod.snd h
      have hr2 := hfused raw raw2 hrawnext
      rw [← h2]
      simp only [Iter.next, hr2]

/-- Witness for claim C10: the exact-count theorem applied to a concrete
one-entry iterator and the fused property applied to a concrete exhausted
iterator. -/
theorem iterator_exact_count_witness :
    (RawIter.mk [((0 : Nat), (1 : Nat))] 0 1).size_hint =
      ((RawIter.mk [((0 : Nat), (1 : Nat))] 0 1).toList.length,
        some (RawIter.mk [((0 : Nat), (1 : Nat))] 0 1).toList.length) ∧
    (RawIter.mk ([] : List (Nat × Nat)) 0 0).next =
      (none, RawIter.mk ([] : List (Nat × Nat)) 0 0) :=
  ⟨(iterator_exact_count).1 (RawIter.mk [((0 : Nat), (1 : Nat))] 0 1)
      (Nat.le_refl 1),
    (iterator_exact_count).2.2.1 (RawIter.mk ([] : List (Nat × Nat)) 0 0)
      (RawIter.mk ([] : List (Nat × Nat)) 0 0) rfl⟩

/-- The `PartialEq` implementation: equal lengths, then every pair yielded
by `iter` must be matched in the other map by a `get` returning an equal
value. -/
def ArchivedHashMap.beq {K V : Type} [DecidableEq K] [DecidableEq V]
    (a b : ArchivedHashMap K V) : Bool :=
  if a.len ≠ b.len then false
  else a.iter.toList.all (fun kv =>
    match b.get kv.1 with
    | some v => decide (kv.2 = v)
    | none => false)

/-- In a well-formed map, every stored pair is found by `get`. -/
theorem get_of_mem {K V : Type} [DecidableEq K] (m : ArchivedHashMap K V)
    (hwf : m.WF) (k : K) (v : V) (hmem : (k, v) ∈ m.entries) :
    m.get k = some v := by
  rw [List.mem_iff_get] at hmem
  obtain ⟨⟨i, hi⟩, hget⟩ := hmem
  have hidx := hwf.2.2 i hi
  rw [hget] at hidx
  have hgetE : m.entries[i]? = some (k, v) := by
    rw [List.getElem?_eq_getElem hi]
    exact congrArg some hget
  simp [ArchivedHashMap.get, ArchivedHashMap.find, hidx, hgetE]

/-- Modelled from the spec: the per-key slot assignment of the perfect-hash
build (the `hash_index` module is not among the given sources).  The spec
leaves the placement order to the index builder; the model places entries
in input order, so a key's slot is the position of its first occurrence. -/
def findSlot {K V : Type} [DecidableEq K] (k : K) : List (K × V) → Option Nat
  | [] => none
  | e :: rest => if e.1 = k then some 0 else (findSlot k rest).map (fun n => n + 1)

/-- Modelled from the spec: the archived map readable from the bytes that a
successful `serialize_from_iter` writes — the entries in the builder's
placement order, together with the index built for them. -/
def archivedOfPairs {K V : Type} [DecidableEq K] (pairs : List (K × V)) :
    ArchivedHashMap K V :=
  ⟨⟨fun k => findSlot k pairs, pairs.length⟩, pairs⟩

/-- With unique keys, the modelled slot assignment sends the key stored at
position `i` to slot `i`. -/
theorem findSlot_self {K V : Type} [DecidableEq K] :
    ∀ pairs : List (K × V), (pairs.map Prod.fst).Nodup →
      ∀ i : Nat, ∀ h : i < pairs.length,
        findSlot (pairs.get ⟨i, h⟩).1 pairs = some i := by
  intro pairs
  induction pairs with
  | nil => intro _ i h; simp at h
  | cons e rest ih =>
    intro hnd i h
    rw [List.map_cons, List.nodup_cons] at hnd
    cases i with
    | zero => simp [findSlot]
    | succ n =>
      have hn : n < rest.length := by simpa using h
      have hkey : (rest.get ⟨n, hn⟩).1 ∈ rest.map Prod.fst := by
        rw [List.mem_map]
        exact ⟨rest.get ⟨n, hn⟩, List.get_mem rest n hn, rfl⟩
      have hne : e.1 ≠ (rest.get ⟨n, hn⟩).1 := fun heq => hnd.1 (heq ▸ hkey)
      have hgets : ((e :: rest).get ⟨n + 1, h⟩) = rest.get ⟨n, hn⟩ := rfl
      rw [hgets]
      simp only [findSlot, if_neg hne]
      rw [ih hnd.2 n hn]
      rfl

/-- A map built by the modelled construction from unique-key input is
well-formed. -/
theorem archivedOfPairs_WF {K V : Type} [DecidableEq K] (pairs : List (K × V))
    (hnd : (pairs.map Prod.fst).Nodup) : (archivedOfPairs pairs).WF :=
  ⟨rfl, hnd, fun i h => findSlot_self pairs hnd i h⟩

/-- Claim C6: map equality holds exactly when lengths agree and every pair
iterated from the left map is matched by lookup in the right with an equal
value; hence it is independent of storage order — well-formed maps holding
the same pair set compare equal — and a differing value at one key makes
the maps compare unequal. -/
theorem map_equality_order_independent {K V : Type} [DecidableEq K] [DecidableEq V] :
    (∀ a b : ArchivedHashMap K V,
      a.beq b = true ↔ (a.len = b.len ∧
        ∀ kv ∈ a.iter.toList, ∃ v, b.get kv.1 = some v ∧ kv.2 = v)) ∧
    (∀ a b : ArchivedHashMap K V, a.WF → b.WF →
      (∀ kv : K × V, kv ∈ a.entries ↔ kv ∈ b.entries) → a.beq b = true) ∧
    (∀ a b : ArchivedHashMap K V, a.WF → ∀ (k : K) (v w : V),
      (k, v) ∈ a.entries → b.get k = some w → v ≠ w → a.beq b = false) := by
  refine ⟨?_, ?_, ?_⟩
  · intro a b
    by_cases hlen : a.len = b.len
    · simp only [ArchivedHashMap.beq]
      rw [if_neg (by simp [hlen]), List.all_eq_true]
      constructor
      · intro h
        refine ⟨hlen, fun kv hkv => ?_⟩
        have hf := h kv hkv
        cases hg : b.get kv.1 with
        | none => rw [hg] at hf; simp at hf
        | some v =>
          rw [hg] at hf
          simp at hf
          exact ⟨v, rfl, hf⟩
      · rintro ⟨-, hall⟩ kv hkv
        obtain ⟨v, hg, hv⟩ := hall kv hkv
        rw [hg]
        simp [hv]
    · simp only [ArchivedHashMap.beq]
      rw [if_pos (by simp [hlen])]
      constructor
      · intro h; simp at h
      · rintro ⟨h1, -⟩; exact absurd h1 hlen
  · intro a b hwa hwb hmem
    have hperm : a.entries.Perm b.entries :=
      (List.perm_ext_iff_of_nodup (List.Nodup.of_map Prod.fst hwa.2.1)
        (List.Nodup.of_map Prod.fst hwb.2.1)).mpr hmem
    have hlen : a.len = b.len := by
      simp only [ArchivedHashMap.len]
      rw [hwa.1, hwb.1]
      exact hperm.length_eq
    simp only [ArchivedHashMap.beq]
    rw [if_neg (by simp [hlen]), List.all_eq_true]
    intro kv hkv
    rw [iter_toList_entries a hwa.1] at hkv
    have hg := get_of_mem b hwb kv.1 kv.2 ((hmem kv).mp hkv)
    rw [hg]
    simp
  · intro a b hwa k v w hkv hgw hvw
    by_cases hlen : a.len = b.len
    · simp only [ArchivedHashMap.beq]
      rw [if_neg (by simp [hlen]), List.all_eq_false]
      refine ⟨(k, v), ?_, ?_⟩
      · rw [iter_toList_entries a hwa.1]; exact hkv
      · simp [hgw, hvw]
    · simp only [ArchivedHashMap.beq]
      rw [if_pos (by simp [hlen])]

/-- Witness for claim C6: two well-formed maps holding the same two pairs
in opposite storage orders compare equal, and a map with one differing
value compares unequal. -/
theorem map_equality_order_independent_witness :
    (archivedOfPairs [((1 : Nat), (10 : Nat)), (2, 20)]).beq
      (archivedOfPairs [((2 : Nat), (20 : Nat)), (1, 10)]) = true ∧
    (archivedOfPairs [((1 : Nat), (10 : Nat)), (2, 20)]).beq
      (archivedOfPairs [((1 : Nat), (11 : Nat)), (2, 20)]) = false :=
  ⟨(map_equality_order_independent).2.1
      (archivedOfPairs [((1 : Nat), (10 : Nat)), (2, 20)])
      (archivedOfPairs [((2 : Nat), (20 : Nat)), (1, 10)])
      (archivedOfPairs_WF _ (by decide)) (archivedOfPairs_WF _ (by decide))
      (fun kv => by constructor <;> intro h <;> simp [archivedOfPairs] at h ⊢ <;> tauto),
    (map_equality_order_independent).2.2
      (archivedOfPairs [((1 : Nat), (10 : Nat)), (2, 20)])
      (archivedOfPairs [((1 : Nat), (11 : Nat)), (2, 20)])
      (archivedOfPairs_WF _ (by decide)) 1 10 11 (by decide) (by decide) (by decide)⟩

/-- Modelled from the spec: the serializer with its scratch facility (not
among the given sources).  Only what the claims observe is kept: the number
of live scratch allocations and a budget of fallible serializer operations,
each of which consumes one unit and fails once the budget is exhausted. -/
structure Ser where
  live : Nat
  budget : Nat

/-- Modelled from the spec: one fallible serializer operation; the error
value carries the serializer state at the failure. -/
def Ser.step (s : Ser) : Except Ser Ser :=
  if s.budget = 0 then Except.error s else Except.ok ⟨s.live, s.budget - 1⟩

/-- Modelled from the spec: `ScratchVec::new` obtains a scratch allocation
from the serializer. -/
def scratch_new (s : Ser) : Except Ser Ser := do
  let s1 ← s.step
  Except.ok ⟨s1.live + 1, s1.budget⟩

/-- Modelled from the spec: `ScratchVec::free` explicitly releases a
scratch allocation back to the serializer. -/
def scratch_free (s : Ser) : Except Ser Ser := do
  let s1 ← s.step
  Except.ok ⟨s1.live - 1, s1.budget⟩

/-- Modelled from the spec: `ArchivedHashIndex::build_and_serialize` (the
`hash_index` module is not among the given sources) builds the index and
fills the entries scratch buffer in the builder's placement order, modelled
as input order; it is a fallible serializer operation. -/
def build_and_serialize {K V : Type} (pairs : List (K × V)) (s : Ser) :
    Except Ser (List (K × V) × Ser) := do
  let s1 ← s.step
  Except.ok (pairs, s1)

/-- The entry-serialization loop of `serialize_from_iter`: each pair
serializes its key and its value, two fallible operations. -/
def serialize_entries {K V : Type} : List (K × V) → Ser → Except Ser Ser
  | [], s => Except.ok s
  | _ :: rest, s => do
    let s1 ← s.step
    let s2 ← s1.step
    serialize_entries rest s2

/-- The entry-resolution loop of `serialize_from_iter`: one fallible
`resolve_aligned` per pair. -/
def resolve_entries {K V : Type} : List (K × V) → Ser → Except Ser Ser
  | [], s => Except.ok s
  | _ :: rest, s => do
    let s1 ← s.step
    resolve_entries rest s1

/-- `serialize_from_iter`: allocate the entries scratch vector, build and
serialize the index, allocate the resolvers scratch vector, serialize every
entry, align, resolve every entry, and only then free the two scratch
vectors.  Every `?` of the source is a monadic bind, so any failure returns
early.  On success the value carries the archived map the written bytes
encode. -/
def ArchivedHashMap.serialize_from_iter {K V : Type} [DecidableEq K]
    (pairs : List (K × V)) (s : Ser) :
    Except Ser (ArchivedHashMap K V × Ser) := do
  let s1 ← scratch_new s
  let (entriesArr, s2) ← build_and_serialize pairs s1
  let s3 ← scratch_new s2
  let s4 ← serialize_entries entriesArr s3
  let s5 ← s4.step
  let s6 ← resolve_entries entriesArr s5
  let s7 ← scratch_free s6
  let s8 ← scratch_free s7
  Except.ok (archivedOfPairs entriesArr, s8)

/-- Binding a successful `Except` applies the continuation. -/
theorem except_bind_ok {E A B : Type} (a : A) (f : A → Except E B) :
    (Except.ok a >>= f) = f a := rfl

/-- Binding a failed `Except` short-circuits. -/
theorem except_bind_error {E A B : Type} (e : E) (f : A → Except E B) :
    ((Except.error e : Except E A) >>= f) = Except.error e := rfl

/-- Inverting a successful `Except` bind. -/
theorem except_bind_eq_ok {E A B : Type} {x : Except E A} {f : A → Except E B}
    {b : B} (h : (x >>= f) = Except.ok b) :
    ∃ a, x = Except.ok a ∧ f a = Except.ok b := by
  cases x with
  | error e => exact absurd h (by simp [except_bind_error])
  | ok a => exact ⟨a, rfl, h⟩

/-- A successful index build hands back the input pairs as the placed
entries. -/
theorem build_and_serialize_ok {K V : Type} {pairs arr : List (K × V)}
    {s s2 : Ser} (h : build_and_serialize pairs s = Except.ok (arr, s2)) :
    arr = pairs := by
  unfold build_and_serialize at h
  obtain ⟨s1, h1, h⟩ := except_bind_eq_ok h
  simp at h
  exact h.1.symm

/-- A successful `serialize_from_iter` returns the map of the modelled
construction on its input pairs. -/
theorem serialize_from_iter_ok {K V : Type} [DecidableEq K]
    (pairs : List (K × V)) (s : Ser) (m : ArchivedHashMap K V) (s' : Ser)
    (h : ArchivedHashMap.serialize_from_iter pairs s = Except.ok (m, s')) :
    m = archivedOfPairs pairs := by
  unfold ArchivedHashMap.serialize_from_iter at h
  obtain ⟨s1, h1, h⟩ := except_bind_eq_ok h
  obtain ⟨⟨entriesArr, s2⟩, h2, h⟩ := except_bind_eq_ok h
  obtain ⟨s3, h3, h⟩ := except_bind_eq_ok h
  obtain ⟨s4, h4, h⟩ := except_bind_eq_ok h
  obtain ⟨s5, h5, h⟩ := except_bind_eq_ok h
  obtain ⟨s6, h6, h⟩ := except_bind_eq_ok h
  obtain ⟨s7, h7, h⟩ := except_bind_eq_ok h
  obtain ⟨s8, h8, h⟩ := except_bind_eq_ok h
  have harr := build_and_serialize_ok h2
  simp at h
  rw [← h.1, harr]

/-- Claim C1: serializing unique-key pairs with `serialize_from_iter` and
reading the archived bytes yields `get` equal to the originally associated
value for every inserted key — hence `contains_key` is true for each — and
`len()` equals the number of inserted pairs. -/
theorem serialize_from_iter_roundtrip {K V : Type} [DecidableEq K]
    (pairs : List (K × V)) (s : Ser) (m : ArchivedHashMap K V) (s' : Ser)
    (k : K) (v : V)
    (hnd : (pairs.map Prod.fst).Nodup)
    (hok : ArchivedHashMap.serialize_from_iter pairs s = Except.ok (m, s'))
    (hmem : (k, v) ∈ pairs) :
    m.get k = some v ∧ m.contains_key k = true ∧ m.len = pairs.length := by
  have hm := serialize_from_iter_ok pairs s m s' hok
  subst hm
  have hwf := archivedOfPairs_WF pairs hnd
  have hget := get_of_mem (archivedOfPairs pairs) hwf k v hmem
  refine ⟨hget, ?_, rfl⟩
  cases hf : (archivedOfPairs pairs).find k with
  | none => simp [ArchivedHashMap.get, hf] at hget
  | some i => simp [ArchivedHashMap.contains_key, hf]

/-- Witness for claim C1: the round-trip theorem applied to two concrete
pairs serialized with a large enough budget. -/
theorem serialize_from_iter_roundtrip_witness :
    (archivedOfPairs [((1 : Nat), (10 : Nat)), (2, 20)]).get 1 = some 10 ∧
    (archivedOfPairs [((1 : Nat), (10 : Nat)), (2, 20)]).contains_key 1 = true ∧
    (archivedOfPairs [((1 : Nat), (10 : Nat)), (2, 20)]).len =
      [((1 : Nat), (10 : Nat)), (2, 20)].length :=
  serialize_from_iter_roundtrip [((1 : Nat), (10 : Nat)), (2, 20)] ⟨0, 100⟩
    (archivedOfPairs [((1 : Nat), (10 : Nat)), (2, 20)]) ⟨0, 88⟩ 1 10
    (by decide) (by rfl) (by decide)

/-- Claim C3 is refuted by the code: on an early error return the scratch
vectors are not freed.  With one pair and an operation budget of 1, the
entries scratch allocation succeeds, the index build fails, and
`serialize_from_iter` returns with one scratch allocation still live,
though it started with none. -/
theorem serialize_from_iter_leaks_scratch_on_error :
    ArchivedHashMap.serialize_from_iter [((0 : Nat), (0 : Nat))] ⟨0, 1⟩ =
      Except.error ⟨1, 0⟩ ∧ (Ser.mk 1 0).live ≠ (Ser.mk 0 1).live :=
  ⟨rfl, by decide⟩

/-- The resolver for `Rc`: the assigned archive position plus the metadata
resolver. -/
structure RcResolver (M : Type) where
  pos : Nat
  metadata_resolver : M

/-- Modelled from the spec: the relative-pointer primitive (not among the
given sources) — a byte offset from the field's own position. -/
structure RelPtrM where
  off : Int

/-- Modelled from the spec: `RelPtr::emplace(self_pos, target_pos, out)`
stores the offset from the field to its target. -/
def RelPtrM.emplace (selfPos targetPos : Nat) : RelPtrM :=
  ⟨(targetPos : Int) - (selfPos : Int)⟩

/-- Modelled from the spec: resolving a relative pointer to the absolute
position it denotes, given the field's own position. -/
def RelPtrM.target (selfPos : Nat) (p : RelPtrM) : Int :=
  (selfPos : Int) + p.off

/-- Emplacing at a position and resolving from that same position lands on
the target. -/
theorem RelPtrM.target_emplace (selfPos q : Nat) :
    RelPtrM.target selfPos (RelPtrM.emplace selfPos q) = (q : Int) := by
  simp [RelPtrM.target, RelPtrM.emplace]

/-- `ArchivedRc`: a thin wrapper around a relative pointer to the archived
value. -/
structure ArchivedRc where
  relPtr : RelPtrM

/-- Modelled from the spec: the shared-serializer facility (not among the
given sources): positions keyed by source identity, the archived bytes
written so far as position-indexed contents, and the next free position. -/
structure SharedSer (I V : Type) where
  table : List (I × Nat)
  heap : List (Nat × V)
  nextPos : Nat

/-- Association-list lookup of an identity's assigned position. -/
def lookupPos {I : Type} [DecidableEq I] (ident : I) : List (I × Nat) → Option Nat
  | [] => none
  | e :: rest => if e.1 = ident then some e.2 else lookupPos ident rest

/-- Reading the archived content stored at a resolved (integer) position. -/
def heapAt {V : Type} (p : Int) : List (Nat × V) → Option V
  | [] => none
  | e :: rest => if (e.1 : Int) = p then some e.2 else heapAt p rest

/-- Modelled from the spec: `serialize_shared` with identity-based dedup —
an already-registered identity returns its assigned position unchanged;
otherwise the body is serialized at the next position and registered. -/
def SharedSer.serialize_shared {I V : Type} [DecidableEq I]
    (s : SharedSer I V) (ident : I) (content : V) : Nat × SharedSer I V :=
  match lookupPos ident s.table with
  | some p => (p, s)
  | none => (s.nextPos,
      ⟨(ident, s.nextPos) :: s.table, (s.nextPos, content) :: s.heap, s.nextPos + 1⟩)

/-- Modelled from the spec: `serialize_metadata` of the unsized-value
facility; for the sized values modelled here the metadata resolver is
trivial and the serializer is unchanged. -/
def serialize_metadata {I V : Type} (v : I × V) (s : SharedSer I V) :
    Unit × SharedSer I V := ((), s)

/-- `ArchivedRc::serialize_from_ref`: query the shared serializer for the
identity's position, then resolve metadata; the resolver carries exactly
that position plus the metadata resolver. -/
def ArchivedRc.serialize_from_ref {I V : Type} [DecidableEq I]
    (v : I × V) (s : SharedSer I V) : RcResolver Unit × SharedSer I V :=
  let ps := s.serialize_shared v.1 v.2
  let ms := serialize_metadata v ps.2
  (⟨ps.1, ms.1⟩, ms.2)

/-- `ArchivedRc::resolve_from_ref`: emplace the relative pointer at the
node's position, targeting the position captured in the resolver; the
value argument only feeds metadata resolution, trivial here. -/
def ArchivedRc.resolve_from_ref {I V : Type} (v : I × V) (pos : Nat)
    (resolver : RcResolver Unit) : ArchivedRc :=
  ⟨RelPtrM.emplace pos resolver.pos⟩

/-- `ArchivedRc::get`: dereference the relative pointer into the archive,
given the node's own position. -/
def ArchivedRc.get {V : Type} (heap : List (Nat × V)) (selfPos : Nat)
    (rc : ArchivedRc) : Option V :=
  heapAt (RelPtrM.target selfPos rc.relPtr) heap

/-- The resolver for `rc::Weak`: `None`, or `Some` of an `Rc` resolver. -/
inductive RcWeakResolver (M : Type) where
  | none
  | some (r : RcResolver M)

/-- `ArchivedRcWeak`: a null weak pointer, or a weak pointer holding a
shared pointer. -/
inductive ArchivedRcWeak where
  | none
  | some (rc : ArchivedRc)

/-- The byte offset of the `Some` payload behind the one-byte tag, per the
spec's layout (tag, then payload). -/
def weakPayloadOffset : Nat := 1

/-- `ArchivedRcWeak::upgrade`: a pure view returning the contained node
when present and `None` when absent. -/
def ArchivedRcWeak.upgrade (w : ArchivedRcWeak) : Option ArchivedRc :=
  match w with
  | ArchivedRcWeak.none => Option.none
  | ArchivedRcWeak.some r => Option.some r

/-- `ArchivedRcWeak::serialize_from_ref`: mirror the optionality of the
input into the resolver. -/
def ArchivedRcWeak.serialize_from_ref {I V : Type} [DecidableEq I]
    (v : Option (I × V)) (s : SharedSer I V) :
    RcWeakResolver Unit × SharedSer I V :=
  match v with
  | Option.none => (RcWeakResolver.none, s)
  | Option.some r =>
    let rs := ArchivedRc.serialize_from_ref r s
    (RcWeakResolver.some rs.1, rs.2)

/-- `ArchivedRcWeak::resolve_from_ref`: a `None` resolver writes only the
`None` tag; a `Some` resolver writes the tag and resolves the contained
`Rc` at the payload offset.  The source unwraps the value in the `Some`
branch; the mismatched-resolver case is outside its safety contract and is
mapped to the tag-only state here. -/
def ArchivedRcWeak.resolve_from_ref {I V : Type} (v : Option (I × V))
    (pos : Nat) (resolver : RcWeakResolver Unit) : ArchivedRcWeak :=
  match resolver, v with
  | RcWeakResolver.none, _ => ArchivedRcWeak.none
  | RcWeakResolver.some r, Option.some val =>
      ArchivedRcWeak.some
        (ArchivedRc.resolve_from_ref val (pos + weakPayloadOffset) r)
  | RcWeakResolver.some _, Option.none => ArchivedRcWeak.none

/-- The modelled shared serializer assigns one position per identity: a
second serialization of the same identity returns the first position. -/
theorem serialize_shared_same_pos {I V : Type} [DecidableEq I]
    (s : SharedSer I V) (ident : I) (c1 c2 : V) :
    (((s.serialize_shared ident c1).2).serialize_shared ident c2).1 =
      (s.serialize_shared ident c1).1 := by
  unfold SharedSer.serialize_shared
  cases hl : lookupPos ident s.table with
  | some p => simp [hl]
  | none => simp [hl, lookupPos]

/-- Claim C5: `ArchivedRc::serialize_from_ref` takes its position
exclusively from the shared serializer's identity-keyed facility and
returns a resolver carrying exactly that position plus the value's
metadata resolver; since the facility assigns one position per identity,
two nodes serialized from the same identity in one session carry the same
position, and resolving them at any two node positions dereferences both
to that same archived position. -/
theorem rc_serialize_shared_dedup {I V : Type} [DecidableEq I] :
    (∀ (v : I × V) (s : SharedSer I V),
      (ArchivedRc.serialize_from_ref v s).1.pos = (s.serialize_shared v.1 v.2).1 ∧
      (ArchivedRc.serialize_from_ref v s).1.metadata_resolver =
        (serialize_metadata v (s.serialize_shared v.1 v.2).2).1) ∧
    (∀ (v w : I × V) (s : SharedSer I V) (p1 p2 : Nat), v.1 = w.1 →
      (ArchivedRc.serialize_from_ref w
          (ArchivedRc.serialize_from_ref v s).2).1.pos =
        (ArchivedRc.serialize_from_ref v s).1.pos ∧
      RelPtrM.target p1 (ArchivedRc.resolve_from_ref v p1
          (ArchivedRc.serialize_from_ref v s).1).relPtr =
        RelPtrM.target p2 (ArchivedRc.resolve_from_ref w p2
          (ArchivedRc.serialize_from_ref w
            (ArchivedRc.serialize_from_ref v s).2).1).relPtr) := by
  have hpos : ∀ (v w : I × V) (s : SharedSer I V), v.1 = w.1 →
      (ArchivedRc.serialize_from_ref w
          (ArchivedRc.serialize_from_ref v s).2).1.pos =
        (ArchivedRc.serialize_from_ref v s).1.pos := by
    intro v w s hvw
    obtain ⟨iv, cv⟩ := v
    obtain ⟨iw, cw⟩ := w
    simp only at hvw
    subst hvw
    simp only [ArchivedRc.serialize_from_ref, serialize_metadata]
    exact serialize_shared_same_pos s iv cv cw
  refine ⟨fun v s => ⟨rfl, rfl⟩, fun v w s p1 p2 hvw => ⟨hpos v w s hvw, ?_⟩⟩
  simp only [ArchivedRc.resolve_from_ref]
  rw [RelPtrM.target_emplace, RelPtrM.target_emplace, hpos v w s hvw]

/-- Witness for claim C5: two values sharing identity `0`, serialized in
one session with an empty shared serializer, get the same position and
their emplaced pointers (at node positions 5 and 9) resolve to the same
archived position. -/
theorem rc_serialize_shared_dedup_witness :
    (ArchivedRc.serialize_from_ref ((0 : Nat), (2 : Nat))
        (ArchivedRc.serialize_from_ref ((0 : Nat), (1 : Nat))
          (SharedSer.mk [] [] 0)).2).1.pos =
      (ArchivedRc.serialize_from_ref ((0 : Nat), (1 : Nat))
        (SharedSer.mk [] [] 0)).1.pos ∧
    RelPtrM.target 5 (ArchivedRc.resolve_from_ref ((0 : Nat), (1 : Nat)) 5
        (ArchivedRc.serialize_from_ref ((0 : Nat), (1 : Nat))
          (SharedSer.mk [] [] 0)).1).relPtr =
      RelPtrM.target 9 (ArchivedRc.resolve_from_ref ((0 : Nat), (2 : Nat)) 9
        (ArchivedRc.serialize_from_ref ((0 : Nat), (2 : Nat))
          (ArchivedRc.serialize_from_ref ((0 : Nat), (1 : Nat))
            (SharedSer.mk [] [] 0)).2).1).relPtr :=
  (rc_serialize_shared_dedup).2 ((0 : Nat), (1 : Nat)) ((0 : Nat), (2 : Nat))
    (SharedSer.mk [] [] 0) 5 9 rfl

/-- Claim C4: weak references round-trip through optionality.
`serialize_from_ref(None, ..)` yields the `None` resolver and leaves the
serializer unchanged; resolving it writes only the absent tag, and
`upgrade` on the result is `None`.  `upgrade` is a pure view: `None` on the
absent state, `Some` of the contained node on the present state.
`serialize_from_ref(Some v, ..)` yields the `Some` variant wrapping the
`Rc` resolver, and for a fresh identity, resolving and upgrading gives the
node whose dereference through the written archive reads back `v`'s
content. -/
theorem weak_roundtrip {I V : Type} [DecidableEq I] :
    (∀ s : SharedSer I V,
      ArchivedRcWeak.serialize_from_ref Option.none s = (RcWeakResolver.none, s)) ∧
    (∀ (v : Option (I × V)) (pos : Nat),
      ArchivedRcWeak.resolve_from_ref v pos (RcWeakResolver.none : RcWeakResolver Unit) =
        ArchivedRcWeak.none) ∧
    (ArchivedRcWeak.upgrade ArchivedRcWeak.none = Option.none) ∧
    (∀ rc : ArchivedRc,
      ArchivedRcWeak.upgrade (ArchivedRcWeak.some rc) = Option.some rc) ∧
    (∀ (v : I × V) (s : SharedSer I V),
      (ArchivedRcWeak.serialize_from_ref (Option.some v) s).1 =
        RcWeakResolver.some (ArchivedRc.serialize_from_ref v s).1) ∧
    (∀ (v : I × V) (s : SharedSer I V) (pos : Nat),
      lookupPos v.1 s.table = Option.none →
      ArchivedRcWeak.upgrade (ArchivedRcWeak.resolve_from_ref (Option.some v) pos
          (ArchivedRcWeak.serialize_from_ref (Option.some v) s).1) =
        Option.some
          (ArchivedRc.mk (RelPtrM.emplace (pos + weakPayloadOffset) s.nextPos)) ∧
      ArchivedRc.get ((ArchivedRcWeak.serialize_from_ref (Option.some v) s).2).heap
          (pos + weakPayloadOffset)
          (ArchivedRc.mk (RelPtrM.emplace (pos + weakPayloadOffset) s.nextPos)) =
        Option.some v.2) := by
  refine ⟨fun s => rfl, fun v pos => rfl, rfl, fun rc => rfl, fun v s => rfl,
    fun v s pos hfresh => ⟨?_, ?_⟩⟩
  · obtain ⟨iv, cv⟩ := v
    simp only at hfresh
    simp [ArchivedRcWeak.serialize_from_ref, ArchivedRc.serialize_from_ref,
      serialize_metadata, SharedSer.serialize_shared, hfresh,
      ArchivedRcWeak.resolve_from_ref, ArchivedRc.resolve_from_ref,
      ArchivedRcWeak.upgrade]
  · obtain ⟨iv, cv⟩ := v
    simp only at hfresh
    simp [ArchivedRcWeak.serialize_from_ref, ArchivedRc.serialize_from_ref,
      serialize_metadata, SharedSer.serialize_shared, hfresh,
      ArchivedRc.get, RelPtrM.target_emplace, heapAt]

/-- Witness for claim C4: archiving `Some (identity 0, content 5)` with an
empty shared serializer at node position 10 and upgrading reads back the
content; the `None` side is instantiated directly by the same theorem. -/
theorem weak_roundtrip_witness :
    ArchivedRcWeak.upgrade (ArchivedRcWeak.resolve_from_ref
        (Option.some ((0 : Nat), (5 : Nat))) 10
        (ArchivedRcWeak.serialize_from_ref (Option.some ((0 : Nat), (5 : Nat)))
          (SharedSer.mk [] [] 0)).1) =
      Option.some (ArchivedRc.mk (RelPtrM.emplace (10 + weakPayloadOffset)
        (SharedSer.mk [] [] 0 : SharedSer Nat Nat).nextPos)) ∧
    ArchivedRc.get ((ArchivedRcWeak.serialize_from_ref
          (Option.some ((0 : Nat), (5 : Nat))) (SharedSer.mk [] [] 0)).2).heap
        (10 + weakPayloadOffset)
        (ArchivedRc.mk (RelPtrM.emplace (10 + weakPayloadOffset)
          (SharedSer.mk [] [] 0 : SharedSer Nat Nat).nextPos)) =
      Option.some ((0 : Nat), (5 : Nat)).2 :=
  (weak_roundtrip).2.2.2.2.2 ((0 : Nat), (5 : Nat)) (SharedSer.mk [] [] 0) 10 rfl
